import Mathlib

/-!
Verification development for the tinympt Merkle-Patricia trie library.

The Rust source is shallowly embedded as follows.

* Keys are byte lists (`List Nat`, each element `< 256` in practice) and are
  canonicalized to nibble lists by `convert_bytes_to_nibbles`, exactly as in
  `src/trie/util.rs`.
* The node algebra (`src/trie/node/{node,extension,branch,mod}.rs`) becomes a
  mutual inductive family `TrieNode` / `TrieNodeLink` / `Extension` / `Branch` /
  `Children`.  `Children` is an inlined 16-slot list of links (the Rust
  `[TrieNodeLink; 16]` array); `Children.get` models array indexing and
  `Children.set` models assignment.
* The backing store (`Database` trait, realized by `MemoryDatabase`) is an
  association list from hash values to nodes, with insert-at-front /
  first-match-get semantics mirroring `HashMap::insert` / `HashMap::get`.
  The `bincode` serialization layer is elided: the store holds structured
  nodes, and the composition `blake2b ∘ bincode::serialize` is a parameter
  `hashB : TrieNode H → H` of the development.  For concrete witnesses it is
  instantiated with the injective encoding `encodeNode` below.
* Values are kept as their serialized byte lists (`Vec<u8>` in Rust); the
  caller-level `bincode` value codec is the identity in this model.
* The recursive algorithms `insert`, `get_value` and `get_proof` may, in Rust,
  recurse through digest links fetched from the store, and on a corrupted
  (cyclic) store they would not terminate.  The embedded versions therefore
  take a fuel argument that is spent on every call; `Err.fuel` models
  non-termination and is not a Rust-observable error.  `collapse` never reads
  the store, so it needs no fuel.  The `unreachable!()` arm of `Trie::commit`
  is modeled by `Err.unreachableHit`.
-/

/-- Error type mirroring `TrieError` (`src/error.rs`): `database` is
`TrieError::Database` (store miss; the formatted message string is elided),
`bincode` is `TrieError::Bincode`, `fuel` models non-termination of the Rust
recursion, and `unreachableHit` models the `unreachable!()` panic in
`Trie::commit`. -/
inductive Err : Type where
  | database : Err
  | bincode : Err
  | fuel : Err
  | unreachableHit : Err
deriving DecidableEq

/-- `util::convert_bytes_to_nibbles`: each byte `x` yields `x >> 4` then
`x & 0x0f` (for bytes `< 256` these are `x / 16` and `x % 16`). -/
def convert_bytes_to_nibbles (bytes : List Nat) : List Nat :=
  bytes.flatMap (fun b => [b / 16, b % 16])

/-- `util::parse_nibble_slices_shared_portion`: longest common portion of two
nibble slices together with both remainders. -/
def parse_nibble_slices_shared_portion : List Nat → List Nat → List Nat × List Nat × List Nat
  | a :: as, b :: bs =>
      if a = b then
        let r := parse_nibble_slices_shared_portion as bs
        (a :: r.1, r.2.1, r.2.2)
      else ([], a :: as, b :: bs)
  | as, bs => ([], as, bs)

/-- Leaf node (`Node` in `src/trie/node/node.rs`). -/
structure Node : Type where
  rest_of_key : List Nat
  value : List Nat
deriving DecidableEq

mutual

/-- `Extension` (`src/trie/node/extension.rs`): a compression edge. -/
inductive Extension (H : Type) : Type where
  | mk (partial_key : List Nat) (branch : TrieNodeLink H) : Extension H

/-- `Branch` (`src/trie/node/branch.rs`): 16 child links plus optional value. -/
inductive Branch (H : Type) : Type where
  | mk (children : Children H) (value : Option (List Nat)) : Branch H

/-- The `[TrieNodeLink; 16]` children array, inlined as a list so the whole
family is a plain mutual inductive. -/
inductive Children (H : Type) : Type where
  | nil : Children H
  | cons (head : TrieNodeLink H) (tail : Children H) : Children H

/-- `TrieNode` (`src/trie/node/mod.rs`). -/
inductive TrieNode (H : Type) : Type where
  | extension (e : Extension H) : TrieNode H
  | node (n : Node) : TrieNode H
  | branch (b : Branch H) : TrieNode H

/-- `TrieNodeLink` (`src/trie/node/mod.rs`). -/
inductive TrieNodeLink (H : Type) : Type where
  | trieNode (n : TrieNode H) : TrieNodeLink H
  | hashValue (h : H) : TrieNodeLink H
  | empty : TrieNodeLink H

end

variable {H : Type} [DecidableEq H]

/-- Array indexing `children[i]`; out-of-range indices (never produced by the
byte-derived nibbles) default to `Empty`. -/
def Children.get : Children H → Nat → TrieNodeLink H
  | .nil, _ => .empty
  | .cons c _, 0 => c
  | .cons _ cs, n + 1 => Children.get cs n

/-- `Branch::set_child`-style assignment `children[i] = x`. -/
def Children.set : Children H → Nat → TrieNodeLink H → Children H
  | .nil, _, _ => .nil
  | .cons _ cs, 0, x => .cons x cs
  | .cons c cs, n + 1, x => .cons c (Children.set cs n x)

/-- The 16 `Empty` slots produced by `array_init` in `Branch::new`. -/
def Children.empty16 : Children H :=
  .cons .empty (.cons .empty (.cons .empty (.cons .empty
    (.cons .empty (.cons .empty (.cons .empty (.cons .empty
    (.cons .empty (.cons .empty (.cons .empty (.cons .empty
    (.cons .empty (.cons .empty (.cons .empty (.cons .empty .nil)))))))))))))))

/-- `Branch::new`. -/
def Branch.new : Branch H := .mk Children.empty16 none

/-- `Branch::set_child`. -/
def Branch.set_child : Branch H → Nat → TrieNodeLink H → Branch H
  | .mk children value, index, child => .mk (children.set index child) value

def Branch.children : Branch H → Children H
  | .mk c _ => c

def Branch.value : Branch H → Option (List Nat)
  | .mk _ v => v

def Extension.partial_key : Extension H → List Nat
  | .mk p _ => p

def Extension.branch : Extension H → TrieNodeLink H
  | .mk _ b => b

/-- The `From<Node/Extension/Branch> for TrieNodeLink` conversions
(`TrieNodeLink::TrieNode(Box::new(...))`). -/
def TrieNode.toLink (n : TrieNode H) : TrieNodeLink H := .trieNode n

/-- The backing store: `MemoryDatabase` is a `HashMap<HashValue, Vec<u8>>`;
here it maps hash values directly to the nodes their bytes decode to. -/
abbrev Db (H : Type) : Type := List (H × TrieNode H)

/-- `Database::get` (first match wins, so a later `dbInsert` shadows). -/
def dbGet : Db H → H → Option (TrieNode H)
  | [], _ => none
  | (k, n) :: rest, h => if k = h then some n else dbGet rest h

/-- `Database::insert` (`HashMap::insert`: overwrite semantics via shadowing). -/
def dbInsert (db : Db H) (h : H) (n : TrieNode H) : Db H := (h, n) :: db

/-- Content addressing invariant: every stored entry is keyed by the hash of
its contents (spec invariant 5). -/
def ContentAddressed (hashB : TrieNode H → H) (db : Db H) : Prop :=
  ∀ p ∈ db, p.1 = hashB p.2

/-- Store extension at the observable (`get`) level. -/
def DbExt (db db' : Db H) : Prop :=
  ∀ h n, dbGet db h = some n → dbGet db' h = some n

mutual

/-- A node containing no `HashValue` links (a purely in-memory subtree). -/
def TrieNode.inlineOnly : TrieNode H → Bool
  | .node _ => true
  | .extension (.mk _ br) => br.inlineOnly
  | .branch (.mk ch _) => ch.inlineOnly

def TrieNodeLink.inlineOnly : TrieNodeLink H → Bool
  | .trieNode n => n.inlineOnly
  | .hashValue _ => false
  | .empty => true

def Children.inlineOnly : Children H → Bool
  | .nil => true
  | .cons c cs => c.inlineOnly && cs.inlineOnly

end

/-- `Node::get_value`: return the value iff the remaining key matches. -/
def Node.get_value (n : Node) (key_nb : List Nat) : Except Err (Option (List Nat)) :=
  if n.rest_of_key = key_nb then .ok (some n.value) else .ok none

mutual

/-- `TrieNode::get_value`, fueled. -/
def TrieNode.get_valueF : Nat → TrieNode H → Db H → List Nat → Except Err (Option (List Nat))
  | 0, _, _, _ => .error .fuel
  | f + 1, .node n, _, key_nb => n.get_value key_nb
  | f + 1, .extension e, db, key_nb => Extension.get_valueF f e db key_nb
  | f + 1, .branch b, db, key_nb => Branch.get_valueF f b db key_nb

/-- `Extension::get_value`: recurse into the branch only when the shared
portion covers the whole `partial_key`. -/
def Extension.get_valueF : Nat → Extension H → Db H → List Nat → Except Err (Option (List Nat))
  | 0, _, _, _ => .error .fuel
  | f + 1, .mk partial_key branch, db, key_nb =>
      let r := parse_nibble_slices_shared_portion partial_key key_nb
      if r.1.length = partial_key.length then
        TrieNodeLink.get_valueF f branch db r.2.2
      else .ok none

/-- `Branch::get_value`. -/
def Branch.get_valueF : Nat → Branch H → Db H → List Nat → Except Err (Option (List Nat))
  | 0, _, _, _ => .error .fuel
  | f + 1, .mk children value, db, key_nb =>
      match key_nb with
      | [] => .ok value
      | i :: rest => TrieNodeLink.get_valueF f (children.get i) db rest

/-- `TrieNodeLink::get_value`: digest links are fetched from the store
(missing digest is `TrieError::Database`). -/
def TrieNodeLink.get_valueF : Nat → TrieNodeLink H → Db H → List Nat → Except Err (Option (List Nat))
  | 0, _, _, _ => .error .fuel
  | f + 1, .trieNode n, db, key_nb => TrieNode.get_valueF f n db key_nb
  | f + 1, .hashValue h, db, key_nb =>
      match dbGet db h with
      | none => .error .database
      | some n => TrieNode.get_valueF f n db key_nb
  | f + 1, .empty, _, _ => .ok none

end

/-- The `From<Extension> for TrieNode` conversion used in `Extension::insert`. -/
def Extension.toTrieNode (e : Extension H) : TrieNode H := .extension e

mutual

/-- `TrieNode::insert`. -/
def TrieNode.insertF : Nat → Db H → TrieNode H → List Nat → List Nat → Except Err (TrieNode H)
  | 0, _, _, _, _ => .error .fuel
  | f + 1, db, .node n, key_nb, value => Node.insertF f db n key_nb value
  | f + 1, db, .extension e, key_nb, value => Extension.insertF f db e key_nb value
  | f + 1, db, .branch b, key_nb, value => Branch.insertF f db b key_nb value

/-- `Node::insert`: replace in place on an exact match, otherwise split into a
branch below the shared portion (wrapped in an extension when non-empty). -/
def Node.insertF : Nat → Db H → Node → List Nat → List Nat → Except Err (TrieNode H)
  | 0, _, _, _, _ => .error .fuel
  | f + 1, db, n, key_nb, value =>
      if n.rest_of_key = key_nb then .ok (.node ⟨n.rest_of_key, value⟩)
      else
        let r := parse_nibble_slices_shared_portion n.rest_of_key key_nb
        do
          let branch1 ← Branch.insertF f db Branch.new r.2.1 n.value
          let branch2 ← TrieNode.insertF f db branch1 r.2.2 value
          if r.1.length = 0 then .ok branch2
          else .ok (.extension (.mk r.1 branch2.toLink))

/-- `Extension::insert`, with the three arms on `rest_of_partial_key.len()`.
Note that the `1` arm returns the bare branch even when the shared portion is
non-empty, exactly as the source does. -/
def Extension.insertF : Nat → Db H → Extension H → List Nat → List Nat → Except Err (TrieNode H)
  | 0, _, _, _, _ => .error .fuel
  | f + 1, db, .mk partial_key old_branch, key_nb, value =>
      let r := parse_nibble_slices_shared_portion partial_key key_nb
      match r.2.1.length with
      | 0 => do
          let nb ← TrieNodeLink.insertF f db old_branch r.2.2 value
          .ok (.extension (.mk r.1 nb))
      | 1 => do
          let branch := Branch.new.set_child (r.2.1.headD 0) old_branch
          let branch ← Branch.insertF f db branch r.2.2 value
          .ok branch
      | _ + 2 => do
          let ext : Extension H := .mk (r.2.1.drop 1) old_branch
          let branch := Branch.new.set_child (r.2.1.headD 0) ext.toTrieNode.toLink
          let branch ← Branch.insertF f db branch r.2.2 value
          if r.1.length = 0 then .ok branch
          else .ok (.extension (.mk r.1 branch.toLink))

/-- `Branch::insert`: an empty key lands in the branch value, otherwise the
first nibble selects the child slot. -/
def Branch.insertF : Nat → Db H → Branch H → List Nat → List Nat → Except Err (TrieNode H)
  | 0, _, _, _, _ => .error .fuel
  | f + 1, db, .mk children bvalue, key_nb, value =>
      match key_nb with
      | [] => .ok (.branch (.mk children (some value)))
      | i :: rest => do
          let child ← TrieNodeLink.insertF f db (children.get i) rest value
          .ok (.branch (.mk (children.set i child) bvalue))

/-- `TrieNodeLink::insert`: digest links are fetched and decoded first, an
empty link becomes a fresh leaf. -/
def TrieNodeLink.insertF : Nat → Db H → TrieNodeLink H → List Nat → List Nat → Except Err (TrieNodeLink H)
  | 0, _, _, _, _ => .error .fuel
  | f + 1, db, .trieNode n, key_nb, value => do
      let n' ← TrieNode.insertF f db n key_nb value
      .ok n'.toLink
  | f + 1, db, .hashValue h, key_nb, value =>
      match dbGet db h with
      | none => .error .database
      | some n => do
          let n' ← TrieNode.insertF f db n key_nb value
          .ok n'.toLink
  | f + 1, _, .empty, key_nb, value => .ok (TrieNode.node ⟨key_nb, value⟩).toLink

end

mutual

/-- `TrieNode::get_proof`: a leaf only reports whether its key matches. -/
def TrieNode.get_proofF : Nat → TrieNode H → Db H → Db H → List Nat → Except Err (Bool × Db H)
  | 0, _, _, _, _ => .error .fuel
  | f + 1, .node n, _, proof_db, key_nb => .ok (n.rest_of_key = key_nb, proof_db)
  | f + 1, .extension e, db, proof_db, key_nb => Extension.get_proofF f e db proof_db key_nb
  | f + 1, .branch b, db, proof_db, key_nb => Branch.get_proofF f b db proof_db key_nb

/-- `Extension::get_proof`. -/
def Extension.get_proofF : Nat → Extension H → Db H → Db H → List Nat → Except Err (Bool × Db H)
  | 0, _, _, _, _ => .error .fuel
  | f + 1, .mk partial_key branch, db, proof_db, key_nb =>
      let r := parse_nibble_slices_shared_portion partial_key key_nb
      if r.1 ≠ partial_key then .ok (false, proof_db)
      else TrieNodeLink.get_proofF f branch db proof_db r.2.2

/-- `Branch::get_proof`. -/
def Branch.get_proofF : Nat → Branch H → Db H → Db H → List Nat → Except Err (Bool × Db H)
  | 0, _, _, _, _ => .error .fuel
  | f + 1, .mk children value, db, proof_db, key_nb =>
      match key_nb with
      | [] => .ok (value.isSome, proof_db)
      | i :: rest => TrieNodeLink.get_proofF f (children.get i) db proof_db rest

/-- `TrieNodeLink::get_proof`: every digest fetched along the way is copied
into the proof store before recursing. -/
def TrieNodeLink.get_proofF : Nat → TrieNodeLink H → Db H → Db H → List Nat → Except Err (Bool × Db H)
  | 0, _, _, _, _ => .error .fuel
  | f + 1, .trieNode n, db, proof_db, key_nb => TrieNode.get_proofF f n db proof_db key_nb
  | f + 1, .hashValue h, db, proof_db, key_nb =>
      match dbGet db h with
      | none => .error .database
      | some n => TrieNode.get_proofF f n db (dbInsert proof_db h n) key_nb
  | f + 1, .empty, _, proof_db, _ => .ok (false, proof_db)

end

section Collapse

variable (hashB : TrieNode H → H)

mutual

/-- `TrieNode::collapse`: rebuild with collapsed children, then serialize,
hash and store the node, returning its digest link.  `hashB` stands for
`util::hash ∘ bincode::serialize`. -/
def TrieNode.collapse : TrieNode H → Db H → TrieNodeLink H × Db H
  | .node n, db =>
      let m : TrieNode H := .node n
      (.hashValue (hashB m), dbInsert db (hashB m) m)
  | .extension (.mk partial_key branch), db =>
      let r := TrieNodeLink.collapse branch db
      let m : TrieNode H := .extension (.mk partial_key r.1)
      (.hashValue (hashB m), dbInsert r.2 (hashB m) m)
  | .branch (.mk children value), db =>
      let r := Children.collapseF children db
      let m : TrieNode H := .branch (.mk r.1 value)
      (.hashValue (hashB m), dbInsert r.2 (hashB m) m)

/-- `TrieNodeLink::collapse`: only inline nodes are collapsed. -/
def TrieNodeLink.collapse : TrieNodeLink H → Db H → TrieNodeLink H × Db H
  | .trieNode n, db => TrieNode.collapse n db
  | l, db => (l, db)

/-- The `for (idx, child) in old_children` loop of the `Branch` arm of
`TrieNode::collapse`, left to right. -/
def Children.collapseF : Children H → Db H → Children H × Db H
  | .nil, db => (.nil, db)
  | .cons c cs, db =>
      let r := TrieNodeLink.collapse c db
      let r' := Children.collapseF cs r.2
      (.cons r.1 r'.1, r'.2)

end

/-- The trie façade: `MemoryTrie` state (`root_node`, `db`, `dirty`). -/
structure TrieState (H : Type) : Type where
  root_node : TrieNodeLink H
  db : Db H
  dirty : Bool

/-- `MemoryTrie::new`. -/
def MemoryTrie.new : TrieState H := ⟨.empty, [], false⟩

/-- `Trie::insert` (the trait default method): convert the key to nibbles,
insert into the root link, set `dirty`.  The store is never written. -/
def Trie.insertF (fuel : Nat) (s : TrieState H) (key value : List Nat) : Except Err (TrieState H) := do
  let key_nb := convert_bytes_to_nibbles key
  let root ← TrieNodeLink.insertF fuel s.db s.root_node key_nb value
  .ok ⟨root, s.db, true⟩

/-- `Trie::get_value`. -/
def Trie.get_valueF (fuel : Nat) (s : TrieState H) (key : List Nat) : Except Err (Option (List Nat)) :=
  TrieNodeLink.get_valueF fuel s.root_node s.db (convert_bytes_to_nibbles key)

/-- `Trie::commit`: collapse the root and return the digest; a collapsed root
that is still inline would hit `unreachable!()`, modeled by `Err.unreachableHit`. -/
def Trie.commit (s : TrieState H) : Except Err (Option H × TrieState H) :=
  let r := TrieNodeLink.collapse hashB s.root_node s.db
  match r.1 with
  | .hashValue h => .ok (some h, ⟨r.1, r.2, false⟩)
  | .empty => .ok (none, ⟨r.1, r.2, false⟩)
  | .trieNode _ => .error .unreachableHit

/-- `Trie::revert`: reseat the root at the given digest and clear `dirty`. -/
def Trie.revert (s : TrieState H) (root_hash : H) : TrieState H :=
  ⟨.hashValue root_hash, s.db, false⟩

/-- `Trie::get_proof`: commit when dirty, then walk the committed root
collecting every traversed node into a fresh proof store. -/
def Trie.get_proofF (fuel : Nat) (s : TrieState H) (root_hash : H) (key : List Nat) :
    Except Err ((Bool × Db H) × TrieState H) := do
  let s ← if s.dirty then (Trie.commit hashB s).map (·.2) else .ok s
  let proof_db : Db H := []
  match dbGet s.db root_hash with
  | some trie_node =>
      let key_nb := convert_bytes_to_nibbles key
      let proof_db := dbInsert proof_db root_hash trie_node
      let r ← TrieNode.get_proofF fuel trie_node s.db proof_db key_nb
      .ok (r, s)
  | none => .ok ((false, proof_db), s)

end Collapse

/-- `verify_proof`: run the lookup against the proof store alone; a missing
root is a `None` verdict, not an error. -/
def verify_proofF (fuel : Nat) (root_hash : H) (proof_db : Db H) (key : List Nat) :
    Except Err (Option (List Nat)) :=
  match dbGet proof_db root_hash with
  | some trie_node => TrieNode.get_valueF fuel trie_node proof_db (convert_bytes_to_nibbles key)
  | none => .ok none

/-- Folding `Trie::insert` over a list of key/value pairs with a fixed fuel. -/
def Trie.insertAllF (fuel : Nat) : List (List Nat × List Nat) → TrieState H → Except Err (TrieState H)
  | [], s => .ok s
  | (k, v) :: rest, s => do
      let s' ← Trie.insertF fuel s k v
      Trie.insertAllF fuel rest s'

/-!
A concrete, provably injective stand-in for `util::hash ∘ bincode::serialize`,
used to instantiate the abstract `hashB` parameter in witnesses: nodes are
encoded as flat token lists, length-prefixing every variable-length field so
that the encoding of a node determines the node (an idealized collision-free
hash).
-/

/-- Length-prefixed list encoding. -/
def encList (l : List Nat) : List Nat := l.length :: l

/-- Encoding of an optional value field. -/
def encOpt : Option (List Nat) → List Nat
  | none => [0]
  | some x => 1 :: encList x

mutual

def encodeNode : TrieNode (List Nat) → List Nat
  | .extension e => 0 :: encodeExtension e
  | .node n => 1 :: (encList n.rest_of_key ++ encList n.value)
  | .branch b => 2 :: encodeBranch b

def encodeExtension : Extension (List Nat) → List Nat
  | .mk pk br => encList pk ++ encodeLink br

def encodeBranch : Branch (List Nat) → List Nat
  | .mk ch v => encodeChildren ch ++ encOpt v

def encodeChildren : Children (List Nat) → List Nat
  | .nil => [0]
  | .cons c cs => 1 :: (encodeLink c ++ encodeChildren cs)

def encodeLink : TrieNodeLink (List Nat) → List Nat
  | .trieNode n => 0 :: encodeNode n
  | .hashValue h => 1 :: encList h
  | .empty => [2]

end

/-! ## Basic lemmas -/

theorem parse_shared_append (a : List Nat) : ∀ b : List Nat,
    a = (parse_nibble_slices_shared_portion a b).1 ++ (parse_nibble_slices_shared_portion a b).2.1 ∧
    b = (parse_nibble_slices_shared_portion a b).1 ++ (parse_nibble_slices_shared_portion a b).2.2 := by
  induction a with
  | nil => intro b; cases b <;> simp [parse_nibble_slices_shared_portion]
  | cons x xs ih =>
      intro b
      cases b with
      | nil => simp [parse_nibble_slices_shared_portion]
      | cons y ys =>
          by_cases hxy : x = y
          · have h := ih ys
            simp [parse_nibble_slices_shared_portion, hxy]
            exact ⟨h.1, h.2⟩
          · simp [parse_nibble_slices_shared_portion, hxy]

theorem parse_shared_eq_iff_len (a b : List Nat) :
    (parse_nibble_slices_shared_portion a b).1.length = a.length ↔
      (parse_nibble_slices_shared_portion a b).1 = a := by
  have h := (parse_shared_append a b).1
  constructor
  · intro hl
    have hlen := congrArg List.length h
    simp only [List.length_append] at hlen
    have h2 : (parse_nibble_slices_shared_portion a b).2.1 = [] :=
      List.eq_nil_of_length_eq_zero (by omega)
    rw [h2, List.append_nil] at h
    exact h.symm
  · intro he
    rw [he]

theorem dbGet_insert_self (db : Db H) (h : H) (n : TrieNode H) :
    dbGet (dbInsert db h n) h = some n := by
  simp [dbGet, dbInsert]

theorem dbGet_insert_ne (db : Db H) (h h' : H) (n : TrieNode H) (hne : h ≠ h') :
    dbGet (dbInsert db h n) h' = dbGet db h' := by
  simp [dbGet, dbInsert, hne]

/-! ## Collapse always yields a digest or empty link -/

theorem TrieNode.collapse_fst_hash (hashB : TrieNode H → H) (n : TrieNode H) (db : Db H) :
    ∃ h, (TrieNode.collapse hashB n db).1 = .hashValue h := by
  cases n with
  | node m => exact ⟨_, rfl⟩
  | extension e => cases e with | mk pk br => exact ⟨_, rfl⟩
  | branch b => cases b with | mk ch v => exact ⟨_, rfl⟩

theorem TrieNodeLink.collapse_shape (hashB : TrieNode H → H) (link : TrieNodeLink H) (db : Db H) :
    (TrieNodeLink.collapse hashB link db).1 = .empty ∨
      ∃ h, (TrieNodeLink.collapse hashB link db).1 = .hashValue h := by
  cases link with
  | trieNode n => exact Or.inr (TrieNode.collapse_fst_hash hashB n db)
  | hashValue h => exact Or.inr ⟨h, rfl⟩
  | empty => exact Or.inl rfl

/-- C10: collapsing any root link yields a `HashValue` or an `Empty` link,
never an inline `TrieNode` link, so `Trie::commit` always returns `Ok` and the
`unreachable!()` arm (modeled by `Err.unreachableHit`) can never execute. -/
theorem claim_C10_collapse_shape (hashB : TrieNode H → H) (s : TrieState H) :
    (∀ link db, ((TrieNodeLink.collapse hashB link db).1 = .empty ∨
      ∃ h, (TrieNodeLink.collapse hashB link db).1 = .hashValue h)) ∧
    ∃ r s', Trie.commit hashB s = .ok (r, s') := by
  refine ⟨fun link db => TrieNodeLink.collapse_shape hashB link db, ?_⟩
  rcases TrieNodeLink.collapse_shape hashB s.root_node s.db with he | ⟨h, hh⟩
  · refine ⟨none, ⟨.empty, (TrieNodeLink.collapse hashB s.root_node s.db).2, false⟩, ?_⟩
    simp only [Trie.commit]
    rw [he]
  · refine ⟨some h, ⟨.hashValue h, (TrieNodeLink.collapse hashB s.root_node s.db).2, false⟩, ?_⟩
    simp only [Trie.commit]
    rw [hh]

/-- C7: `commit()` on an empty trie (root link `Empty`) succeeds and returns
the distinguished "no root" value `none` — not an error and not a hash. -/
theorem claim_C7_commit_empty (hashB : TrieNode H → H) (db : Db H) (dirty : Bool) :
    Trie.commit hashB ⟨.empty, db, dirty⟩ = .ok (none, ⟨.empty, db, false⟩) := rfl

/-- C6: `commit` is idempotent: immediately after a `commit` that returned
root `r` and state `s'`, a second `commit` returns the same root and leaves
the state (in particular the root link) unchanged. -/
theorem claim_C6_commit_idempotent (hashB : TrieNode H → H) (s : TrieState H)
    (r : Option H) (s' : TrieState H) (h : Trie.commit hashB s = .ok (r, s')) :
    Trie.commit hashB s' = .ok (r, s') := by
  rcases TrieNodeLink.collapse_shape hashB s.root_node s.db with he | ⟨hh, hhe⟩
  · simp only [Trie.commit] at h
    rw [he] at h
    simp only [Except.ok.injEq, Prod.mk.injEq] at h
    rw [← h.1, ← h.2]
    rfl
  · simp only [Trie.commit] at h
    rw [hhe] at h
    simp only [Except.ok.injEq, Prod.mk.injEq] at h
    rw [← h.1, ← h.2]
    rfl

theorem claim_C6_witness :
    Trie.commit encodeNode (TrieState.mk .empty [] false) =
      .ok (none, TrieState.mk .empty [] false) :=
  claim_C6_commit_idempotent encodeNode (TrieState.mk .empty [] false) none
    (TrieState.mk .empty [] false) rfl

/-- C9: on a clean (`dirty = false`) trie, `get_proof` leaves the trie state —
in particular the backing store — unchanged; it only reads the backing store
and writes the freshly created proof store. -/
theorem claim_C9_get_proof_frame (hashB : TrieNode H → H) (fuel : Nat) (s : TrieState H)
    (root_hash : H) (key : List Nat) (pr : Bool × Db H) (s' : TrieState H)
    (hd : s.dirty = false)
    (h : Trie.get_proofF hashB fuel s root_hash key = .ok (pr, s')) :
    s' = s ∧ s'.db = s.db := by
  simp only [Trie.get_proofF, hd, if_false, Bool.false_eq_true, bind, Except.bind] at h
  split at h
  · split at h
    · exact absurd h (by simp)
    · obtain ⟨h1, h2⟩ := (by simpa using h : _ ∧ s = s')
      exact ⟨h2.symm, by rw [← h2]⟩
  · obtain ⟨h1, h2⟩ := (by simpa using h : _ ∧ s = s')
    exact ⟨h2.symm, by rw [← h2]⟩

theorem claim_C9_witness :
    TrieState.mk (H := List Nat) .empty [] false = TrieState.mk .empty [] false ∧
    (TrieState.mk (H := List Nat) .empty [] false).db = (TrieState.mk .empty [] false).db :=
  claim_C9_get_proof_frame encodeNode 5 ⟨.empty, [], false⟩ [] [0] (false, [])
    ⟨.empty, [], false⟩ rfl rfl

/-! ## Lookup error characterization -/

theorem get_valueF_error_cases : ∀ f : Nat,
    (∀ (l : TrieNodeLink H) db k e, TrieNodeLink.get_valueF f l db k = .error e →
        e = .database ∨ e = .fuel) ∧
    (∀ (n : TrieNode H) db k e, TrieNode.get_valueF f n db k = .error e →
        e = .database ∨ e = .fuel) ∧
    (∀ (x : Extension H) db k e, Extension.get_valueF f x db k = .error e →
        e = .database ∨ e = .fuel) ∧
    (∀ (b : Branch H) db k e, Branch.get_valueF f b db k = .error e →
        e = .database ∨ e = .fuel) := by
  intro f
  induction f with
  | zero =>
      refine ⟨?_, ?_, ?_, ?_⟩ <;>
        · intro x db k e h
          simp only [TrieNodeLink.get_valueF, TrieNode.get_valueF, Extension.get_valueF,
            Branch.get_valueF, Except.error.injEq] at h
          exact Or.inr h.symm
  | succ f ih =>
      obtain ⟨ihL, ihN, ihE, ihB⟩ := ih
      refine ⟨?_, ?_, ?_, ?_⟩
      · intro l db k e h
        cases l with
        | trieNode n => exact ihN n db k e h
        | hashValue hh =>
            simp only [TrieNodeLink.get_valueF] at h
            cases hg : dbGet db hh with
            | none => rw [hg] at h; simp only [Except.error.injEq] at h; exact Or.inl h.symm
            | some n => rw [hg] at h; exact ihN n db k e h
        | empty => simp [TrieNodeLink.get_valueF] at h
      · intro n db k e h
        cases n with
        | node m =>
            simp only [TrieNode.get_valueF, Node.get_value] at h
            split at h <;> simp at h
        | extension x => exact ihE x db k e h
        | branch b => exact ihB b db k e h
      · intro x db k e h
        cases x with
        | mk pk br =>
            simp only [Extension.get_valueF] at h
            split at h
            · exact ihL br db _ e h
            · simp at h
      · intro b db k e h
        cases b with
        | mk ch v =>
            simp only [Branch.get_valueF] at h
            cases k with
            | nil => simp at h
            | cons i rest => exact ihL (ch.get i) db rest e h

/-- C8: a lookup can fail only because a referenced digest is missing from the
backing store (`Err.database`; in the byte-level source additionally a decode
failure, `TrieError::Bincode`, which cannot arise in this node-level model) or
because of fuel exhaustion, which models Rust-level non-termination on a
corrupted store and is not a returned error in Rust.  Keys that are merely
absent — empty link, leaf key mismatch, extension prefix mismatch, or a branch
without a value — always produce the normal `Ok(None)` result. -/
theorem claim_C8_lookup_errors :
    (∀ (f : Nat) (l : TrieNodeLink H) (db : Db H) (k : List Nat) (e : Err),
        TrieNodeLink.get_valueF f l db k = .error e → e = .database ∨ e = .fuel) ∧
    (∀ (f : Nat) (db : Db H) (k : List Nat),
        TrieNodeLink.get_valueF (f + 1) .empty db k = .ok none) ∧
    (∀ (n : Node) (k : List Nat), n.rest_of_key ≠ k → Node.get_value n k = .ok none) ∧
    (∀ (f : Nat) (pk : List Nat) (br : TrieNodeLink H) (db : Db H) (k : List Nat),
        (parse_nibble_slices_shared_portion pk k).1.length ≠ pk.length →
        Extension.get_valueF (f + 1) (.mk pk br) db k = .ok none) ∧
    (∀ (f : Nat) (ch : Children H) (db : Db H),
        Branch.get_valueF (f + 1) (.mk ch none) db [] = .ok none) := by
  refine ⟨?_, ?_, ?_, ?_, ?_⟩
  · intro f l db k e h
    exact (get_valueF_error_cases f).1 l db k e h
  · intro f db k
    rfl
  · intro n k hne
    simp [Node.get_value, hne]
  · intro f pk br db k hne
    simp [Extension.get_valueF, hne]
  · intro f ch db
    rfl

theorem claim_C8_witness :
    TrieNodeLink.get_valueF 1 (.empty : TrieNodeLink (List Nat)) [] [0] = .ok none ∧
    Node.get_value ⟨[1], [2]⟩ [0] = .ok none :=
  ⟨(claim_C8_lookup_errors (H := List Nat)).2.1 0 [] [0],
    (claim_C8_lookup_errors (H := List Nat)).2.2.1 ⟨[1], [2]⟩ [0] (by decide)⟩

/-! ## The extension-split code bug (claims C1 and C3) -/

/-- C3 (code bug): inserting into an `Extension` when the unshared remainder
`rest_p` of `partial_key` has length exactly 1.  The new `Branch` does hold
the old child at slot `rest_p[0]` with the new key/value inserted, but the `1`
arm of `Extension::insert` returns that branch bare even when the shared
portion is non-empty: the shared prefix is silently discarded instead of being
re-wrapped in `Extension { partial_key: shared, .. }` (contrast the `_` arm,
which does wrap).  Here `partial_key = [1,2]`, key `[1,3]`: shared is `[1]`
(non-empty), `rest_p = [2]`, and the result is the bare branch. -/
theorem claim_C3_code_bug_eval :
    Extension.insertF 10 ([] : Db (List Nat)) (.mk [1, 2] (.hashValue [7])) [1, 3] [9] =
      .ok (.branch (.mk ((Children.empty16.set 2 (.hashValue [7])).set 3
        (.trieNode (.node ⟨[], [9]⟩))) none)) ∧
    (Extension.insertF 10 ([] : Db (List Nat)) (.mk [1, 2] (.hashValue [7])) [1, 3] [9]).map
      (fun t => match t with | .extension _ => true | _ => false) = .ok false :=
  ⟨rfl, rfl⟩

/-- C1 (code bug): the round-trip property fails on the code.  Inserting the
three byte keys `[53,0]`, `[53,17]`, `[54,0]` (nibbles `[3,5,0,0]`,
`[3,5,1,1]`, `[3,6,0,0]`) with distinct values into a fresh trie and
committing once, `get_value` of the first key returns `Ok(None)` instead of
`Some([1])`: the third insert hits the `Extension::insert` arm of
`claim_C3_code_bug_eval`'s bug and drops the shared nibble `3`, making all
previously inserted keys unreachable.  (The second conjunct shows the same
failure for the second key, and the third shows the trie is not empty: the
third key is also lost, while lookups under the shifted path succeed.) -/
theorem claim_C1_code_bug_eval :
    ((do
      let s ← Trie.insertAllF 32 [([53, 0], [1]), ([53, 17], [2]), ([54, 0], [3])]
        (MemoryTrie.new (H := List Nat))
      let p ← Trie.commit encodeNode s
      Trie.get_valueF 32 p.2 [53, 0]) = .ok none) ∧
    ((do
      let s ← Trie.insertAllF 32 [([53, 0], [1]), ([53, 17], [2]), ([54, 0], [3])]
        (MemoryTrie.new (H := List Nat))
      let p ← Trie.commit encodeNode s
      Trie.get_valueF 32 p.2 [53, 17]) = .ok none) ∧
    ((do
      let s ← Trie.insertAllF 32 [([53, 0], [1]), ([53, 17], [2])]
        (MemoryTrie.new (H := List Nat))
      let p ← Trie.commit encodeNode s
      Trie.get_valueF 32 p.2 [53, 0]) = .ok (some [1])) :=
  ⟨rfl, rfl, rfl⟩

/-! ## Injectivity of the concrete encoding -/

theorem encList_cancel (a b s t : List Nat) (h : encList a ++ s = encList b ++ t) :
    a = b ∧ s = t := by
  simp only [encList, List.cons_append, List.cons.injEq] at h
  exact List.append_inj h.2 h.1

theorem encOpt_cancel (a b : Option (List Nat)) (s t : List Nat)
    (h : encOpt a ++ s = encOpt b ++ t) : a = b ∧ s = t := by
  cases a <;> cases b <;> simp only [encOpt, List.cons_append, List.cons.injEq] at h
  · exact ⟨rfl, h.2⟩
  · exact absurd h.1 (by decide)
  · exact absurd h.1 (by decide)
  · obtain ⟨hv, hs⟩ := encList_cancel _ _ _ _ h.2
    exact ⟨by rw [hv], hs⟩

mutual

theorem encodeNode_cancel : ∀ (x y : TrieNode (List Nat)) (s t : List Nat),
    encodeNode x ++ s = encodeNode y ++ t → x = y ∧ s = t
  | .extension e, .extension e', s, t, h => by
      simp only [encodeNode, List.cons_append, List.cons.injEq, List.append_assoc] at h
      obtain ⟨he, hs⟩ := encodeExtension_cancel e e' s t h.2
      exact ⟨by rw [he], hs⟩
  | .extension _, .node _, _, _, h => by
      simp only [encodeNode, List.cons_append, List.cons.injEq] at h
      exact absurd h.1 (by decide)
  | .extension _, .branch _, _, _, h => by
      simp only [encodeNode, List.cons_append, List.cons.injEq] at h
      exact absurd h.1 (by decide)
  | .node _, .extension _, _, _, h => by
      simp only [encodeNode, List.cons_append, List.cons.injEq] at h
      exact absurd h.1 (by decide)
  | .node n, .node n', s, t, h => by
      simp only [encodeNode, List.cons_append, List.cons.injEq, List.append_assoc] at h
      obtain ⟨hk, h2⟩ := encList_cancel _ _ _ _ h.2
      obtain ⟨hv, hs⟩ := encList_cancel _ _ _ _ h2
      refine ⟨?_, hs⟩
      cases n; cases n'
      simp_all
  | .node _, .branch _, _, _, h => by
      simp only [encodeNode, List.cons_append, List.cons.injEq] at h
      exact absurd h.1 (by decide)
  | .branch _, .extension _, _, _, h => by
      simp only [encodeNode, List.cons_append, List.cons.injEq] at h
      exact absurd h.1 (by decide)
  | .branch _, .node _, _, _, h => by
      simp only [encodeNode, List.cons_append, List.cons.injEq] at h
      exact absurd h.1 (by decide)
  | .branch b, .branch b', s, t, h => by
      simp only [encodeNode, List.cons_append, List.cons.injEq, List.append_assoc] at h
      obtain ⟨hb, hs⟩ := encodeBranch_cancel b b' s t h.2
      exact ⟨by rw [hb], hs⟩

theorem encodeExtension_cancel : ∀ (x y : Extension (List Nat)) (s t : List Nat),
    encodeExtension x ++ s = encodeExtension y ++ t → x = y ∧ s = t
  | .mk pk br, .mk pk' br', s, t, h => by
      simp only [encodeExtension, List.append_assoc] at h
      obtain ⟨hp, h2⟩ := encList_cancel _ _ _ _ h
      obtain ⟨hb, hs⟩ := encodeLink_cancel br br' s t h2
      exact ⟨by rw [hp, hb], hs⟩

theorem encodeBranch_cancel : ∀ (x y : Branch (List Nat)) (s t : List Nat),
    encodeBranch x ++ s = encodeBranch y ++ t → x = y ∧ s = t
  | .mk ch v, .mk ch' v', s, t, h => by
      simp only [encodeBranch, List.append_assoc] at h
      obtain ⟨hc, h2⟩ := encodeChildren_cancel ch ch' _ _ h
      obtain ⟨hv, hs⟩ := encOpt_cancel v v' s t h2
      exact ⟨by rw [hc, hv], hs⟩

theorem encodeChildren_cancel : ∀ (x y : Children (List Nat)) (s t : List Nat),
    encodeChildren x ++ s = encodeChildren y ++ t → x = y ∧ s = t
  | .nil, .nil, s, t, h => by
      simp only [encodeChildren, List.cons_append, List.nil_append, List.cons.injEq] at h
      exact ⟨rfl, h.2⟩
  | .nil, .cons _ _, _, _, h => by
      simp only [encodeChildren, List.cons_append, List.nil_append, List.cons.injEq] at h
      exact absurd h.1 (by decide)
  | .cons _ _, .nil, _, _, h => by
      simp only [encodeChildren, List.cons_append, List.nil_append, List.cons.injEq] at h
      exact absurd h.1 (by decide)
  | .cons c cs, .cons c' cs', s, t, h => by
      simp only [encodeChildren, List.cons_append, List.cons.injEq, List.append_assoc] at h
      obtain ⟨hc, h2⟩ := encodeLink_cancel c c' _ _ h.2
      obtain ⟨hcs, hs⟩ := encodeChildren_cancel cs cs' s t h2
      exact ⟨by rw [hc, hcs], hs⟩

theorem encodeLink_cancel : ∀ (x y : TrieNodeLink (List Nat)) (s t : List Nat),
    encodeLink x ++ s = encodeLink y ++ t → x = y ∧ s = t
  | .trieNode n, .trieNode n', s, t, h => by
      simp only [encodeLink, List.cons_append, List.cons.injEq] at h
      obtain ⟨hn, hs⟩ := encodeNode_cancel n n' s t h.2
      exact ⟨by rw [hn], hs⟩
  | .trieNode _, .hashValue _, _, _, h => by
      simp only [encodeLink, List.cons_append, List.cons.injEq] at h
      exact absurd h.1 (by decide)
  | .trieNode _, .empty, _, _, h => by
      simp only [encodeLink, List.cons_append, List.cons.injEq] at h
      exact absurd h.1 (by decide)
  | .hashValue _, .trieNode _, _, _, h => by
      simp only [encodeLink, List.cons_append, List.cons.injEq] at h
      exact absurd h.1 (by decide)
  | .hashValue a, .hashValue a', s, t, h => by
      simp only [encodeLink, List.cons_append, List.cons.injEq, List.append_assoc] at h
      obtain ⟨ha, hs⟩ := encList_cancel _ _ _ _ h.2
      exact ⟨by rw [ha], hs⟩
  | .hashValue _, .empty, _, _, h => by
      simp only [encodeLink, List.cons_append, List.cons.injEq] at h
      exact absurd h.1 (by decide)
  | .empty, .trieNode _, _, _, h => by
      simp only [encodeLink, List.cons_append, List.cons.injEq] at h
      exact absurd h.1 (by decide)
  | .empty, .hashValue _, _, _, h => by
      simp only [encodeLink, List.cons_append, List.cons.injEq] at h
      exact absurd h.1 (by decide)
  | .empty, .empty, s, t, h => by
      simp only [encodeLink, List.cons_append, List.nil_append, List.cons.injEq] at h
      exact ⟨rfl, h.2⟩

end

theorem encodeNode_injective : Function.Injective (encodeNode) := by
  intro x y h
  exact (encodeNode_cancel x y [] [] (by rw [h])).1

/-! ## Store extension under content addressing -/

theorem dbGet_mem {db : Db H} {h : H} {n : TrieNode H} (hg : dbGet db h = some n) :
    (h, n) ∈ db := by
  induction db with
  | nil => simp [dbGet] at hg
  | cons p rest ih =>
      obtain ⟨k, m⟩ := p
      by_cases hk : k = h
      · subst hk
        simp [dbGet] at hg
        simp [hg]
      · simp [dbGet, hk] at hg
        exact List.mem_cons_of_mem _ (ih hg)

theorem DbExt.refl (db : Db H) : DbExt db db := fun _ _ h => h

theorem DbExt.trans {db1 db2 db3 : Db H} (h12 : DbExt db1 db2) (h23 : DbExt db2 db3) :
    DbExt db1 db3 := fun h n hg => h23 h n (h12 h n hg)

theorem ContentAddressed.insert {hashB : TrieNode H → H} {db : Db H}
    (hca : ContentAddressed hashB db) (m : TrieNode H) :
    ContentAddressed hashB (dbInsert db (hashB m) m) := by
  intro p hp
  rcases List.mem_cons.mp hp with h | h
  · rw [h]
  · exact hca p h

theorem DbExt.insert_hash {hashB : TrieNode H → H} (hinj : Function.Injective hashB)
    {db : Db H} (hca : ContentAddressed hashB db) (m : TrieNode H) :
    DbExt db (dbInsert db (hashB m) m) := by
  intro h n hg
  by_cases hh : h = hashB m
  · have hmem := dbGet_mem hg
    have := hca _ hmem
    simp only at this
    rw [hh] at this
    have : n = m := hinj this.symm
    rw [hh, this, dbGet_insert_self]
  · rw [dbGet_insert_ne _ _ _ _ (fun he => hh he.symm)]
    exact hg

section CollapsePreservation

variable (hashB : TrieNode H → H) (hinj : Function.Injective hashB)

mutual

theorem TrieNode.collapse_dbext (hinj : Function.Injective hashB) : ∀ (n : TrieNode H) (db : Db H),
    ContentAddressed hashB db →
    ContentAddressed hashB (TrieNode.collapse hashB n db).2 ∧
      DbExt db (TrieNode.collapse hashB n db).2
  | .node m, db, hca =>
      ⟨hca.insert _, DbExt.insert_hash hinj hca _⟩
  | .extension (.mk pk br), db, hca => by
      obtain ⟨hca1, hext1⟩ := TrieNodeLink.collapse_link_dbext hinj br db hca
      exact ⟨hca1.insert _, hext1.trans (DbExt.insert_hash hinj hca1 _)⟩
  | .branch (.mk ch v), db, hca => by
      obtain ⟨hca1, hext1⟩ := Children.collapseF_dbext hinj ch db hca
      exact ⟨hca1.insert _, hext1.trans (DbExt.insert_hash hinj hca1 _)⟩

theorem TrieNodeLink.collapse_link_dbext (hinj : Function.Injective hashB) : ∀ (l : TrieNodeLink H) (db : Db H),
    ContentAddressed hashB db →
    ContentAddressed hashB (TrieNodeLink.collapse hashB l db).2 ∧
      DbExt db (TrieNodeLink.collapse hashB l db).2
  | .trieNode n, db, hca => TrieNode.collapse_dbext hinj n db hca
  | .hashValue _, db, hca => ⟨hca, DbExt.refl db⟩
  | .empty, db, hca => ⟨hca, DbExt.refl db⟩

theorem Children.collapseF_dbext (hinj : Function.Injective hashB) : ∀ (ch : Children H) (db : Db H),
    ContentAddressed hashB db →
    ContentAddressed hashB (Children.collapseF hashB ch db).2 ∧
      DbExt db (Children.collapseF hashB ch db).2
  | .nil, db, hca => ⟨hca, DbExt.refl db⟩
  | .cons c cs, db, hca => by
      obtain ⟨hca1, hext1⟩ := TrieNodeLink.collapse_link_dbext hinj c db hca
      obtain ⟨hca2, hext2⟩ := Children.collapseF_dbext hinj cs _ hca1
      exact ⟨hca2, hext1.trans hext2⟩

end

/-- Everything `Trie::commit` establishes about its output, by case analysis on
the collapsed root. -/
theorem Trie.commit_destruct {s : TrieState H} {r : Option H} {s' : TrieState H}
    (h : Trie.commit hashB s = .ok (r, s')) :
    s'.root_node = (TrieNodeLink.collapse hashB s.root_node s.db).1 ∧
    s'.db = (TrieNodeLink.collapse hashB s.root_node s.db).2 ∧
    s'.dirty = false ∧
    ((∃ hh, r = some hh ∧
        (TrieNodeLink.collapse hashB s.root_node s.db).1 = .hashValue hh) ∨
      (r = none ∧ (TrieNodeLink.collapse hashB s.root_node s.db).1 = .empty)) := by
  rcases TrieNodeLink.collapse_shape hashB s.root_node s.db with he | ⟨hh, hhe⟩
  · simp only [Trie.commit] at h
    rw [he] at h
    simp only [Except.ok.injEq, Prod.mk.injEq] at h
    rw [← h.2, he]
    exact ⟨rfl, rfl, rfl, Or.inr ⟨h.1.symm, rfl⟩⟩
  · simp only [Trie.commit] at h
    rw [hhe] at h
    simp only [Except.ok.injEq, Prod.mk.injEq] at h
    rw [← h.2, hhe]
    exact ⟨rfl, rfl, rfl, Or.inl ⟨hh, h.1.symm, rfl⟩⟩

theorem Trie.commit_preserves (hinj : Function.Injective hashB)
    {s : TrieState H} {r : Option H} {s' : TrieState H}
    (h : Trie.commit hashB s = .ok (r, s')) (hca : ContentAddressed hashB s.db) :
    ContentAddressed hashB s'.db ∧ DbExt s.db s'.db := by
  obtain ⟨-, hdb, -, -⟩ := Trie.commit_destruct hashB h
  rw [hdb]
  exact TrieNodeLink.collapse_link_dbext hashB hinj s.root_node s.db hca

end CollapsePreservation

/-- `Trie::insert` never writes the store; folded over any sequence it leaves
the store exactly as it was. -/
theorem Trie.insertAllF_db (f : Nat) : ∀ (ops : List (List Nat × List Nat))
    (s s' : TrieState H), Trie.insertAllF f ops s = .ok s' → s'.db = s.db := by
  intro ops
  induction ops with
  | nil =>
      intro s s' h
      simp only [Trie.insertAllF, Except.ok.injEq] at h
      rw [← h]
  | cons p rest ih =>
      intro s s' h
      obtain ⟨k, v⟩ := p
      simp only [Trie.insertAllF, Trie.insertF, bind, Except.bind] at h
      cases hr : TrieNodeLink.insertF f s.db s.root_node (convert_bytes_to_nibbles k) v with
      | error e => rw [hr] at h; simp at h
      | ok root =>
          rw [hr] at h
          exact ih ⟨root, s.db, true⟩ s' (by exact h)


/-! ## Lookup is stable under store extension -/

theorem get_valueF_dbext : ∀ f : Nat,
    (∀ (l : TrieNodeLink H) (db db2 : Db H) (k : List Nat) (r : Option (List Nat)),
        DbExt db db2 → TrieNodeLink.get_valueF f l db k = .ok r →
        TrieNodeLink.get_valueF f l db2 k = .ok r) ∧
    (∀ (n : TrieNode H) (db db2 : Db H) (k : List Nat) (r : Option (List Nat)),
        DbExt db db2 → TrieNode.get_valueF f n db k = .ok r →
        TrieNode.get_valueF f n db2 k = .ok r) ∧
    (∀ (x : Extension H) (db db2 : Db H) (k : List Nat) (r : Option (List Nat)),
        DbExt db db2 → Extension.get_valueF f x db k = .ok r →
        Extension.get_valueF f x db2 k = .ok r) ∧
    (∀ (b : Branch H) (db db2 : Db H) (k : List Nat) (r : Option (List Nat)),
        DbExt db db2 → Branch.get_valueF f b db k = .ok r →
        Branch.get_valueF f b db2 k = .ok r) := by
  intro f
  induction f with
  | zero =>
      refine ⟨?_, ?_, ?_, ?_⟩ <;>
        · intro x db db2 k r hext h
          simp [TrieNodeLink.get_valueF, TrieNode.get_valueF, Extension.get_valueF,
            Branch.get_valueF] at h
  | succ f ih =>
      obtain ⟨ihL, ihN, ihE, ihB⟩ := ih
      refine ⟨?_, ?_, ?_, ?_⟩
      · intro l db db2 k r hext h
        cases l with
        | trieNode n => exact ihN n db db2 k r hext h
        | hashValue hh =>
            simp only [TrieNodeLink.get_valueF] at h ⊢
            cases hg : dbGet db hh with
            | none => rw [hg] at h; simp at h
            | some n =>
                rw [hg] at h
                rw [hext hh n hg]
                exact ihN n db db2 k r hext h
        | empty => exact h
      · intro n db db2 k r hext h
        cases n with
        | node m => exact h
        | extension x => exact ihE x db db2 k r hext h
        | branch b => exact ihB b db db2 k r hext h
      · intro x db db2 k r hext h
        cases x with
        | mk pk br =>
            simp only [Extension.get_valueF] at h ⊢
            split at h
            · rw [if_pos (by assumption)]
              exact ihL br db db2 _ r hext h
            · rw [if_neg (by assumption)]
              exact h
      · intro b db db2 k r hext h
        cases b with
        | mk ch v =>
            cases k with
            | nil => exact h
            | cons i rest => exact ihL (ch.get i) db db2 rest r hext h

/-- C5: after a `commit` yielding `r1`, any further successful inserts and a
second `commit`, `revert(r1)` restores exactly the pre-`r2` observable state:
every lookup that succeeded against the state committed at `r1` returns the
same result (present values unchanged, later insertions absent) after the
revert.  The injectivity of `hashB` idealizes collision freedom of
`blake2b ∘ bincode::serialize`; the store must be content addressed, as every
store produced by this library is. -/
theorem claim_C5_revert_round_trip (hashB : TrieNode H → H)
    (hinj : Function.Injective hashB)
    (s0 : TrieState H) (hca : ContentAddressed hashB s0.db)
    (r1 : H) (s1 : TrieState H) (h1 : Trie.commit hashB s0 = .ok (some r1, s1))
    (f : Nat) (ops : List (List Nat × List Nat)) (s1' : TrieState H)
    (h2 : Trie.insertAllF f ops s1 = .ok s1')
    (r2 : Option H) (s2 : TrieState H) (h3 : Trie.commit hashB s1' = .ok (r2, s2))
    (k : List Nat) (res : Option (List Nat)) (g : Nat)
    (h4 : Trie.get_valueF g s1 k = .ok res) :
    Trie.get_valueF g (Trie.revert s2 r1) k = .ok res := by
  obtain ⟨hroot1, hdb1, hdirty1, hcase1⟩ := Trie.commit_destruct hashB h1
  have hroot1' : s1.root_node = .hashValue r1 := by
    rcases hcase1 with ⟨hh, hval, hlink⟩ | ⟨hval, hlink⟩
    · rw [hroot1, hlink]
      simp only [Option.some.injEq] at hval
      rw [hval]
    · simp at hval
  obtain ⟨hca1, hext1⟩ := Trie.commit_preserves hashB hinj h1 hca
  have hdb2 : s1'.db = s1.db := Trie.insertAllF_db f ops s1 s1' h2
  have hca1' : ContentAddressed hashB s1'.db := by rw [hdb2]; exact hca1
  obtain ⟨hca2, hext2⟩ := Trie.commit_preserves hashB hinj h3 hca1'
  have hext : DbExt s1.db s2.db := by
    rw [← hdb2]
    exact hext2
  simp only [Trie.get_valueF, Trie.revert] at h4 ⊢
  rw [hroot1'] at h4
  exact (get_valueF_dbext g).1 _ s1.db s2.db _ res hext h4

theorem claim_C5_witness :
    (do
      let p1 ← Trie.commit encodeNode ⟨.trieNode (.node ⟨[0, 5], [1]⟩), [], true⟩
      let s1' ← Trie.insertAllF 20 [([5, 1], [2])] p1.2
      let p2 ← Trie.commit encodeNode s1'
      match p1.1 with
      | some r1 => Trie.get_valueF 20 (Trie.revert p2.2 r1) [5]
      | none => .error .fuel) = .ok (some [1]) := by
  exact claim_C5_revert_round_trip encodeNode encodeNode_injective
    ⟨.trieNode (.node ⟨[0, 5], [1]⟩), [], true⟩ (by intro p hp; simp at hp)
    [1, 2, 0, 5, 1, 1]
    ⟨.hashValue [1, 2, 0, 5, 1, 1],
      [([1, 2, 0, 5, 1, 1], .node ⟨[0, 5], [1]⟩)], false⟩ (by rfl)
    20 [([5, 1], [2])]
    ⟨.trieNode (.extension (.mk [0, 5] (.trieNode (.branch (.mk
        (Children.empty16.set 0 (.trieNode (.node ⟨[1], [2]⟩))) (some [1])))))),
      [([1, 2, 0, 5, 1, 1], .node ⟨[0, 5], [1]⟩)], true⟩ (by rfl)
    (some ([0, 2, 0, 5, 1, 43] ++
      [2, 1, 1, 5, 1, 1, 1, 1, 2, 1, 2, 1, 2, 1, 2, 1, 2, 1, 2, 1, 2, 1, 2, 1, 2,
        1, 2, 1, 2, 1, 2, 1, 2, 1, 2, 1, 2, 1, 2, 0, 1, 1, 1]))
    ⟨.hashValue ([0, 2, 0, 5, 1, 43] ++
        [2, 1, 1, 5, 1, 1, 1, 1, 2, 1, 2, 1, 2, 1, 2, 1, 2, 1, 2, 1, 2, 1, 2, 1, 2,
          1, 2, 1, 2, 1, 2, 1, 2, 1, 2, 1, 2, 1, 2, 0, 1, 1, 1]),
      [(([0, 2, 0, 5, 1, 43] ++
          [2, 1, 1, 5, 1, 1, 1, 1, 2, 1, 2, 1, 2, 1, 2, 1, 2, 1, 2, 1, 2, 1, 2, 1, 2,
            1, 2, 1, 2, 1, 2, 1, 2, 1, 2, 1, 2, 1, 2, 0, 1, 1, 1]),
        .extension (.mk [0, 5] (.hashValue
          [2, 1, 1, 5, 1, 1, 1, 1, 2, 1, 2, 1, 2, 1, 2, 1, 2, 1, 2, 1, 2, 1, 2, 1, 2,
            1, 2, 1, 2, 1, 2, 1, 2, 1, 2, 1, 2, 1, 2, 0, 1, 1, 1]))),
        ([2, 1, 1, 5, 1, 1, 1, 1, 2, 1, 2, 1, 2, 1, 2, 1, 2, 1, 2, 1, 2, 1, 2, 1, 2,
            1, 2, 1, 2, 1, 2, 1, 2, 1, 2, 1, 2, 1, 2, 0, 1, 1, 1],
          .branch (.mk (Children.empty16.set 0 (.hashValue [1, 1, 1, 1, 2])) (some [1]))),
        ([1, 1, 1, 1, 2], .node ⟨[1], [2]⟩),
        ([1, 2, 0, 5, 1, 1], .node ⟨[0, 5], [1]⟩)], false⟩ (by rfl)
    [5] (some [1]) 20 (by rfl)

/-! ## Proof generation is sound (claim C2) -/

theorem DbExt.insert_of_get {pdb db : Db H} (hsub : DbExt pdb db) {hh : H} {n : TrieNode H}
    (hget : dbGet db hh = some n) : DbExt (dbInsert pdb hh n) db := by
  intro h m hm
  by_cases he : hh = h
  · subst he
    rw [dbGet_insert_self] at hm
    obtain rfl : n = m := Option.some.inj hm
    exact hget
  · rw [dbGet_insert_ne _ _ _ _ he] at hm
    exact hsub h m hm

theorem DbExt.to_insert {pdb db : Db H} (hsub : DbExt pdb db) {hh : H} {n : TrieNode H}
    (hget : dbGet db hh = some n) : DbExt pdb (dbInsert pdb hh n) := by
  intro h m hm
  by_cases he : hh = h
  · subst he
    have := hsub hh m hm
    rw [hget, Option.some.injEq] at this
    rw [this, dbGet_insert_self]
  · rw [dbGet_insert_ne _ _ _ _ he]
    exact hm

theorem dbGet_singleton {h h' : H} {n m : TrieNode H}
    (hg : dbGet (dbInsert [] h n) h' = some m) : h' = h ∧ m = n := by
  by_cases he : h = h'
  · subst he
    rw [dbGet_insert_self, Option.some.injEq] at hg
    exact ⟨rfl, hg.symm⟩
  · rw [dbGet_insert_ne _ _ _ _ he] at hg
    simp [dbGet] at hg

theorem get_proofF_sound : ∀ f : Nat,
    (∀ (l : TrieNodeLink H) (db pdb : Db H) (k : List Nat) (ex : Bool) (pdb' : Db H),
      DbExt pdb db → TrieNodeLink.get_proofF f l db pdb k = .ok (ex, pdb') →
      DbExt pdb pdb' ∧ DbExt pdb' db ∧
      ∃ res, TrieNodeLink.get_valueF f l db k = .ok res ∧ ex = res.isSome ∧
        (∀ db2, DbExt pdb' db2 → DbExt db2 db → TrieNodeLink.get_valueF f l db2 k = .ok res)) ∧
    (∀ (n : TrieNode H) (db pdb : Db H) (k : List Nat) (ex : Bool) (pdb' : Db H),
      DbExt pdb db → TrieNode.get_proofF f n db pdb k = .ok (ex, pdb') →
      DbExt pdb pdb' ∧ DbExt pdb' db ∧
      ∃ res, TrieNode.get_valueF f n db k = .ok res ∧ ex = res.isSome ∧
        (∀ db2, DbExt pdb' db2 → DbExt db2 db → TrieNode.get_valueF f n db2 k = .ok res)) ∧
    (∀ (x : Extension H) (db pdb : Db H) (k : List Nat) (ex : Bool) (pdb' : Db H),
      DbExt pdb db → Extension.get_proofF f x db pdb k = .ok (ex, pdb') →
      DbExt pdb pdb' ∧ DbExt pdb' db ∧
      ∃ res, Extension.get_valueF f x db k = .ok res ∧ ex = res.isSome ∧
        (∀ db2, DbExt pdb' db2 → DbExt db2 db → Extension.get_valueF f x db2 k = .ok res)) ∧
    (∀ (b : Branch H) (db pdb : Db H) (k : List Nat) (ex : Bool) (pdb' : Db H),
      DbExt pdb db → Branch.get_proofF f b db pdb k = .ok (ex, pdb') →
      DbExt pdb pdb' ∧ DbExt pdb' db ∧
      ∃ res, Branch.get_valueF f b db k = .ok res ∧ ex = res.isSome ∧
        (∀ db2, DbExt pdb' db2 → DbExt db2 db → Branch.get_valueF f b db2 k = .ok res)) := by
  intro f
  induction f with
  | zero =>
      refine ⟨?_, ?_, ?_, ?_⟩ <;>
        · intro x db pdb k ex pdb' hsub h
          simp [TrieNodeLink.get_proofF, TrieNode.get_proofF, Extension.get_proofF,
            Branch.get_proofF] at h
  | succ f ih =>
      obtain ⟨ihL, ihN, ihE, ihB⟩ := ih
      refine ⟨?_, ?_, ?_, ?_⟩
      · intro l db pdb k ex pdb' hsub h
        cases l with
        | trieNode n => exact ihN n db pdb k ex pdb' hsub h
        | hashValue hh =>
            simp only [TrieNodeLink.get_proofF] at h
            cases hg : dbGet db hh with
            | none => rw [hg] at h; simp at h
            | some n =>
                rw [hg] at h
                obtain ⟨hmon, hsub', res, hget, hex, hall⟩ :=
                  ihN n db (dbInsert pdb hh n) k ex pdb' (hsub.insert_of_get hg) h
                have hmon0 : DbExt pdb pdb' := (hsub.to_insert hg).trans hmon
                refine ⟨hmon0, hsub', res, ?_, hex, ?_⟩
                · simp only [TrieNodeLink.get_valueF]
                  rw [hg]
                  exact hget
                · intro db2 h2e h2s
                  have hr : dbGet db2 hh = some n :=
                    h2e hh n (hmon hh n (dbGet_insert_self pdb hh n))
                  simp only [TrieNodeLink.get_valueF]
                  rw [hr]
                  exact hall db2 h2e h2s
        | empty =>
            simp only [TrieNodeLink.get_proofF, Except.ok.injEq, Prod.mk.injEq] at h
            obtain ⟨hex, hp⟩ := h
            subst hp
            exact ⟨DbExt.refl pdb, hsub, none, rfl, hex.symm, fun db2 _ _ => rfl⟩
      · intro n db pdb k ex pdb' hsub h
        cases n with
        | node m =>
            simp only [TrieNode.get_proofF, Except.ok.injEq, Prod.mk.injEq] at h
            obtain ⟨hex, hp⟩ := h
            subst hp
            by_cases hmk : m.rest_of_key = k
            · refine ⟨DbExt.refl pdb, hsub, some m.value, ?_, ?_, ?_⟩
              · simp [TrieNode.get_valueF, Node.get_value, hmk]
              · simp [← hex, hmk]
              · intro db2 _ _
                simp [TrieNode.get_valueF, Node.get_value, hmk]
            · refine ⟨DbExt.refl pdb, hsub, none, ?_, ?_, ?_⟩
              · simp [TrieNode.get_valueF, Node.get_value, hmk]
              · simp [← hex, hmk]
              · intro db2 _ _
                simp [TrieNode.get_valueF, Node.get_value, hmk]
        | extension x =>
            obtain ⟨hmon, hsub', res, hget, hex, hall⟩ := ihE x db pdb k ex pdb' hsub h
            exact ⟨hmon, hsub', res, hget, hex, hall⟩
        | branch b =>
            obtain ⟨hmon, hsub', res, hget, hex, hall⟩ := ihB b db pdb k ex pdb' hsub h
            exact ⟨hmon, hsub', res, hget, hex, hall⟩
      · intro x db pdb k ex pdb' hsub h
        cases x with
        | mk pk br =>
            simp only [Extension.get_proofF] at h
            by_cases hne : (parse_nibble_slices_shared_portion pk k).1 = pk
            · rw [if_neg (by simp [hne])] at h
              have hlen : (parse_nibble_slices_shared_portion pk k).1.length = pk.length := by
                rw [hne]
              obtain ⟨hmon, hsub', res, hget, hex, hall⟩ :=
                ihL br db pdb _ ex pdb' hsub h
              refine ⟨hmon, hsub', res, ?_, hex, ?_⟩
              · simp only [Extension.get_valueF]
                rw [if_pos hlen]
                exact hget
              · intro db2 h2e h2s
                simp only [Extension.get_valueF]
                rw [if_pos hlen]
                exact hall db2 h2e h2s
            · rw [if_pos (by simp [hne])] at h
              simp only [Except.ok.injEq, Prod.mk.injEq] at h
              obtain ⟨hex, hp⟩ := h
              subst hp
              have hlen : ¬ (parse_nibble_slices_shared_portion pk k).1.length = pk.length :=
                fun hc => hne ((parse_shared_eq_iff_len pk k).mp hc)
              refine ⟨DbExt.refl pdb, hsub, none, ?_, hex.symm, ?_⟩
              · simp only [Extension.get_valueF]
                rw [if_neg hlen]
              · intro db2 _ _
                simp only [Extension.get_valueF]
                rw [if_neg hlen]
      · intro b db pdb k ex pdb' hsub h
        cases b with
        | mk ch v =>
            cases k with
            | nil =>
                simp only [Branch.get_proofF, Except.ok.injEq, Prod.mk.injEq] at h
                obtain ⟨hex, hp⟩ := h
                subst hp
                exact ⟨DbExt.refl pdb, hsub, v, rfl, hex.symm, fun db2 _ _ => rfl⟩
            | cons i rest =>
                exact ihL (ch.get i) db pdb rest ex pdb' hsub h

/-- C2: for a committed trie (clean, root link `HashValue r` with `r` present
in the backing store), if `get_proof(r, k)` returns `(exists, P)` then the
normal lookup of `k` against the backing store succeeds with some result
`res`, `exists` is true iff `res` is `Some`, and `verify_proof(r, P, k)`
returns exactly `res`. -/
theorem claim_C2_proof_soundness (hashB : TrieNode H → H) (f : Nat) (s : TrieState H)
    (r : H) (k : List Nat) (ex : Bool) (P : Db H) (s' : TrieState H)
    (rootNode : TrieNode H)
    (hdirty : s.dirty = false)
    (hroot : s.root_node = .hashValue r)
    (hfetch : dbGet s.db r = some rootNode)
    (hgp : Trie.get_proofF hashB f s r k = .ok ((ex, P), s')) :
    ∃ res, Trie.get_valueF (f + 1) s k = .ok res ∧ ex = res.isSome ∧
      verify_proofF f r P k = .ok res := by
  simp only [Trie.get_proofF, hdirty, if_false, Bool.false_eq_true, bind, Except.bind] at hgp
  rw [hfetch] at hgp
  dsimp only at hgp
  cases hpr : TrieNode.get_proofF f rootNode s.db (dbInsert [] r rootNode)
      (convert_bytes_to_nibbles k) with
  | error e => rw [hpr] at hgp; simp at hgp
  | ok pr =>
      obtain ⟨prex, prdb⟩ := pr
      rw [hpr] at hgp
      dsimp only at hgp
      simp only [Except.ok.injEq, Prod.mk.injEq] at hgp
      obtain ⟨⟨hex0, hP0⟩, hs0⟩ := hgp
      rw [hex0, hP0] at hpr
      have hsub0 : DbExt (dbInsert [] r rootNode) s.db := by
        intro h n hg
        obtain ⟨rfl, rfl⟩ := dbGet_singleton hg
        exact hfetch
      obtain ⟨hmon, hsubP, res, hget, hexeq, hall⟩ :=
        (get_proofF_sound f).2.1 rootNode s.db (dbInsert [] r rootNode)
          (convert_bytes_to_nibbles k) ex P hsub0 hpr
      refine ⟨res, ?_, hexeq, ?_⟩
      · show TrieNodeLink.get_valueF (f + 1) s.root_node s.db
          (convert_bytes_to_nibbles k) = .ok res
        rw [hroot]
        simp only [TrieNodeLink.get_valueF]
        rw [hfetch]
        exact hget
      · have hPr : dbGet P r = some rootNode :=
          hmon r rootNode (dbGet_insert_self [] r rootNode)
        simp only [verify_proofF]
        rw [hPr]
        exact hall P (DbExt.refl P) hsubP

theorem claim_C2_witness :
    ∃ res, Trie.get_valueF 6
        (⟨.hashValue [1, 2, 0, 5, 1, 1],
          [([1, 2, 0, 5, 1, 1], .node ⟨[0, 5], [1]⟩)], false⟩ : TrieState (List Nat)) [5] =
        .ok res ∧ true = res.isSome ∧
      verify_proofF 5 [1, 2, 0, 5, 1, 1]
        [([1, 2, 0, 5, 1, 1], .node ⟨[0, 5], [1]⟩)] [5] = .ok res :=
  claim_C2_proof_soundness encodeNode 5
    ⟨.hashValue [1, 2, 0, 5, 1, 1], [([1, 2, 0, 5, 1, 1], .node ⟨[0, 5], [1]⟩)], false⟩
    [1, 2, 0, 5, 1, 1] [5] true
    [([1, 2, 0, 5, 1, 1], .node ⟨[0, 5], [1]⟩)]
    ⟨.hashValue [1, 2, 0, 5, 1, 1], [([1, 2, 0, 5, 1, 1], .node ⟨[0, 5], [1]⟩)], false⟩
    (.node ⟨[0, 5], [1]⟩) rfl rfl (by rfl) (by rfl)

/-! ## Root determinism (claim C4) -/

theorem Children.inlineOnly_empty16 : (Children.empty16 : Children H).inlineOnly = true := rfl

theorem Children.inlineOnly_get' : ∀ (ch : Children H), ch.inlineOnly = true →
    ∀ i : Nat, (ch.get i).inlineOnly = true
  | .nil, _, i => by cases i <;> rfl
  | .cons c cs, hch, 0 => by
      simp only [Children.inlineOnly, Bool.and_eq_true] at hch
      exact hch.1
  | .cons c cs, hch, i + 1 => by
      simp only [Children.inlineOnly, Bool.and_eq_true] at hch
      exact Children.inlineOnly_get' cs hch.2 i

theorem Children.inlineOnly_get {ch : Children H} (hch : ch.inlineOnly = true) (i : Nat) :
    (ch.get i).inlineOnly = true := Children.inlineOnly_get' ch hch i

theorem Children.inlineOnly_set' : ∀ (ch : Children H), ch.inlineOnly = true →
    ∀ (x : TrieNodeLink H), x.inlineOnly = true → ∀ i : Nat, (ch.set i x).inlineOnly = true
  | .nil, hch, x, hx, i => hch
  | .cons c cs, hch, x, hx, 0 => by
      simp only [Children.inlineOnly, Bool.and_eq_true] at hch
      simp [Children.set, Children.inlineOnly, hx, hch.2]
  | .cons c cs, hch, x, hx, i + 1 => by
      simp only [Children.inlineOnly, Bool.and_eq_true] at hch
      simp [Children.set, Children.inlineOnly, hch.1,
        Children.inlineOnly_set' cs hch.2 x hx i]

theorem Children.inlineOnly_set {ch : Children H} (hch : ch.inlineOnly = true)
    {x : TrieNodeLink H} (hx : x.inlineOnly = true) (i : Nat) :
    (ch.set i x).inlineOnly = true := Children.inlineOnly_set' ch hch x hx i

/-- Inserting into an inline subtree reads nothing from the store (the result
is the same for any two stores) and produces an inline subtree. -/
theorem insertF_inline : ∀ f : Nat,
    (∀ (l : TrieNodeLink H) (d1 d2 : Db H) (k v : List Nat), l.inlineOnly = true →
      TrieNodeLink.insertF f d1 l k v = TrieNodeLink.insertF f d2 l k v ∧
      (∀ r, TrieNodeLink.insertF f d1 l k v = .ok r → r.inlineOnly = true)) ∧
    (∀ (n : TrieNode H) (d1 d2 : Db H) (k v : List Nat), n.inlineOnly = true →
      TrieNode.insertF f d1 n k v = TrieNode.insertF f d2 n k v ∧
      (∀ r, TrieNode.insertF f d1 n k v = .ok r → r.inlineOnly = true)) ∧
    (∀ (n : Node) (d1 d2 : Db H) (k v : List Nat),
      Node.insertF (H := H) f d1 n k v = Node.insertF f d2 n k v ∧
      (∀ r, Node.insertF (H := H) f d1 n k v = .ok r → r.inlineOnly = true)) ∧
    (∀ (x : Extension H) (d1 d2 : Db H) (k v : List Nat),
      (TrieNode.extension x).inlineOnly = true →
      Extension.insertF f d1 x k v = Extension.insertF f d2 x k v ∧
      (∀ r, Extension.insertF f d1 x k v = .ok r → r.inlineOnly = true)) ∧
    (∀ (b : Branch H) (d1 d2 : Db H) (k v : List Nat),
      (TrieNode.branch b).inlineOnly = true →
      Branch.insertF f d1 b k v = Branch.insertF f d2 b k v ∧
      (∀ r, Branch.insertF f d1 b k v = .ok r → r.inlineOnly = true)) := by
  intro f
  induction f with
  | zero =>
      refine ⟨?_, ?_, ?_, ?_, ?_⟩ <;>
        · intro x d1 d2 k v
          first
            | exact ⟨rfl, fun r h => by simp [TrieNodeLink.insertF, TrieNode.insertF,
                Node.insertF, Extension.insertF, Branch.insertF] at h⟩
            | exact fun _ => ⟨rfl, fun r h => by simp [TrieNodeLink.insertF,
                TrieNode.insertF, Node.insertF, Extension.insertF, Branch.insertF] at h⟩
  | succ f ih =>
      obtain ⟨ihL, ihN, ihNd, ihE, ihB⟩ := ih
      refine ⟨?_, ?_, ?_, ?_, ?_⟩
      · intro l d1 d2 k v hl
        cases l with
        | trieNode n =>
            obtain ⟨heq, hinl⟩ := ihN n d1 d2 k v hl
            constructor
            · simp only [TrieNodeLink.insertF, bind, Except.bind]
              rw [heq]
            · intro r hr
              simp only [TrieNodeLink.insertF, bind, Except.bind] at hr
              cases hn : TrieNode.insertF f d1 n k v with
              | error e => rw [hn] at hr; simp at hr
              | ok n' =>
                  rw [hn] at hr
                  simp only [Except.ok.injEq] at hr
                  rw [← hr]
                  exact hinl n' hn
        | hashValue hh => simp [TrieNodeLink.inlineOnly] at hl
        | empty =>
            refine ⟨rfl, fun r hr => ?_⟩
            simp only [TrieNodeLink.insertF, Except.ok.injEq] at hr
            rw [← hr]
            rfl
      · intro n d1 d2 k v hn
        cases n with
        | node m => exact ihNd m d1 d2 k v
        | extension x => exact ihE x d1 d2 k v hn
        | branch b => exact ihB b d1 d2 k v hn
      · intro n d1 d2 k v
        simp only [Node.insertF]
        by_cases hk : n.rest_of_key = k
        · rw [if_pos hk, if_pos hk]
          exact ⟨rfl, fun r hr => by
            simp only [Except.ok.injEq] at hr
            rw [← hr]
            rfl⟩
        · rw [if_neg hk, if_neg hk]
          obtain ⟨heq1, hinl1⟩ := ihB Branch.new d1 d2
            (parse_nibble_slices_shared_portion n.rest_of_key k).2.1 n.value
            (by rfl)
          simp only [bind, Except.bind]
          rw [← heq1]
          cases hb1 : Branch.insertF f d1 Branch.new
              (parse_nibble_slices_shared_portion n.rest_of_key k).2.1 n.value with
          | error e => exact ⟨rfl, fun r hr => by simp at hr⟩
          | ok b1 =>
              dsimp only
              have hb1i : b1.inlineOnly = true := hinl1 b1 hb1
              obtain ⟨heq2, hinl2⟩ := ihN b1 d1 d2
                (parse_nibble_slices_shared_portion n.rest_of_key k).2.2 v hb1i
              rw [← heq2]
              cases hb2 : TrieNode.insertF f d1 b1
                  (parse_nibble_slices_shared_portion n.rest_of_key k).2.2 v with
              | error e => exact ⟨rfl, fun r hr => by simp at hr⟩
              | ok b2 =>
                  dsimp only
                  have hb2i : b2.inlineOnly = true := hinl2 b2 hb2
                  refine ⟨rfl, fun r hr => ?_⟩
                  split at hr <;>
                    · simp only [Except.ok.injEq] at hr
                      rw [← hr]
                      simpa [TrieNode.inlineOnly, TrieNodeLink.inlineOnly,
                        TrieNode.toLink] using hb2i
      · intro x d1 d2 k v hx
        cases x with
        | mk pk br =>
            have hbr : br.inlineOnly = true := by
              simpa [TrieNode.inlineOnly] using hx
            simp only [Extension.insertF]
            cases hlen : (parse_nibble_slices_shared_portion pk k).2.1.length with
            | zero =>
                obtain ⟨heq, hinl⟩ := ihL br d1 d2
                  (parse_nibble_slices_shared_portion pk k).2.2 v hbr
                simp only [bind, Except.bind]
                rw [← heq]
                cases hb : TrieNodeLink.insertF f d1 br
                    (parse_nibble_slices_shared_portion pk k).2.2 v with
                | error e => exact ⟨rfl, fun r hr => by simp at hr⟩
                | ok nb =>
                    dsimp only
                    refine ⟨rfl, fun r hr => ?_⟩
                    simp only [Except.ok.injEq] at hr
                    rw [← hr]
                    simpa [TrieNode.inlineOnly] using hinl nb hb
            | succ m =>
                cases m with
                | zero =>
                    have hbi : (TrieNode.branch (Branch.new.set_child
                        ((parse_nibble_slices_shared_portion pk k).2.1.headD 0) br)).inlineOnly
                        = true := by
                      simp only [Branch.new, Branch.set_child, TrieNode.inlineOnly]
                      exact Children.inlineOnly_set Children.inlineOnly_empty16 hbr _
                    obtain ⟨heq, hinl⟩ := ihB _ d1 d2
                      (parse_nibble_slices_shared_portion pk k).2.2 v hbi
                    simp only [bind, Except.bind]
                    rw [← heq]
                    cases hb : Branch.insertF f d1
                        (Branch.new.set_child
                          ((parse_nibble_slices_shared_portion pk k).2.1.headD 0) br)
                        (parse_nibble_slices_shared_portion pk k).2.2 v with
                    | error e => exact ⟨rfl, fun r hr => by simp at hr⟩
                    | ok b2 =>
                        dsimp only
                        refine ⟨rfl, fun r hr => ?_⟩
                        simp only [Except.ok.injEq] at hr
                        rw [← hr]
                        exact hinl b2 hb
                | succ m2 =>
                    have hbi : (TrieNode.branch (Branch.new.set_child
                        ((parse_nibble_slices_shared_portion pk k).2.1.headD 0)
                        (Extension.mk ((parse_nibble_slices_shared_portion pk k).2.1.drop 1)
                          br).toTrieNode.toLink)).inlineOnly = true := by
                      simp only [Branch.new, Branch.set_child, TrieNode.inlineOnly]
                      refine Children.inlineOnly_set Children.inlineOnly_empty16 ?_ _
                      simpa [Extension.toTrieNode, TrieNode.toLink, TrieNodeLink.inlineOnly,
                        TrieNode.inlineOnly] using hbr
                    obtain ⟨heq, hinl⟩ := ihB _ d1 d2
                      (parse_nibble_slices_shared_portion pk k).2.2 v hbi
                    simp only [bind, Except.bind]
                    rw [← heq]
                    cases hb : Branch.insertF f d1
                        (Branch.new.set_child
                          ((parse_nibble_slices_shared_portion pk k).2.1.headD 0)
                          (Extension.mk ((parse_nibble_slices_shared_portion pk k).2.1.drop 1)
                            br).toTrieNode.toLink)
                        (parse_nibble_slices_shared_portion pk k).2.2 v with
                    | error e => exact ⟨rfl, fun r hr => by simp at hr⟩
                    | ok b2 =>
                        dsimp only
                        have hb2i := hinl b2 hb
                        refine ⟨rfl, fun r hr => ?_⟩
                        split at hr <;>
                          · simp only [Except.ok.injEq] at hr
                            rw [← hr]
                            simpa [TrieNode.inlineOnly, TrieNodeLink.inlineOnly,
                              TrieNode.toLink] using hb2i
      · intro b d1 d2 k v hb
        cases b with
        | mk ch bv =>
            have hch : ch.inlineOnly = true := by
              simpa [TrieNode.inlineOnly] using hb
            cases k with
            | nil =>
                refine ⟨rfl, fun r hr => ?_⟩
                simp only [Branch.insertF, Except.ok.injEq] at hr
                rw [← hr]
                simpa [TrieNode.inlineOnly] using hch
            | cons i rest =>
                obtain ⟨heq, hinl⟩ := ihL (ch.get i) d1 d2 rest v
                  (Children.inlineOnly_get hch i)
                simp only [Branch.insertF, bind, Except.bind]
                rw [← heq]
                cases hc : TrieNodeLink.insertF f d1 (ch.get i) rest v with
                | error e => exact ⟨rfl, fun r hr => by simp at hr⟩
                | ok c' =>
                    dsimp only
                    refine ⟨rfl, fun r hr => ?_⟩
                    simp only [Except.ok.injEq] at hr
                    rw [← hr]
                    simp only [TrieNode.inlineOnly]
                    exact Children.inlineOnly_set hch (hinl c' hc) i

section CollapseFst

variable (hashB : TrieNode H → H)

mutual

/-- The collapsed link (the digest structure) depends only on the node, not on
the store contents. -/
theorem TrieNode.collapse_fst_eq : ∀ (n : TrieNode H) (d1 d2 : Db H),
    (TrieNode.collapse hashB n d1).1 = (TrieNode.collapse hashB n d2).1
  | .node m, d1, d2 => rfl
  | .extension (.mk pk br), d1, d2 => by
      simp only [TrieNode.collapse]
      rw [TrieNodeLink.collapse_link_fst_eq br d1 d2]
  | .branch (.mk ch v), d1, d2 => by
      simp only [TrieNode.collapse]
      rw [Children.collapseF_fst_eq ch d1 d2]

theorem TrieNodeLink.collapse_link_fst_eq : ∀ (l : TrieNodeLink H) (d1 d2 : Db H),
    (TrieNodeLink.collapse hashB l d1).1 = (TrieNodeLink.collapse hashB l d2).1
  | .trieNode n, d1, d2 => TrieNode.collapse_fst_eq n d1 d2
  | .hashValue _, _, _ => rfl
  | .empty, _, _ => rfl

theorem Children.collapseF_fst_eq : ∀ (ch : Children H) (d1 d2 : Db H),
    (Children.collapseF hashB ch d1).1 = (Children.collapseF hashB ch d2).1
  | .nil, _, _ => rfl
  | .cons c cs, d1, d2 => by
      simp only [Children.collapseF]
      rw [TrieNodeLink.collapse_link_fst_eq c d1 d2,
        Children.collapseF_fst_eq cs (TrieNodeLink.collapse hashB c d1).2
          (TrieNodeLink.collapse hashB c d2).2]

end

/-- The root digest returned by `commit` depends only on the root link. -/
theorem Trie.commit_fst_eq {s t : TrieState H} (hroot : s.root_node = t.root_node) :
    Except.map Prod.fst (Trie.commit hashB s) = Except.map Prod.fst (Trie.commit hashB t) := by
  have hc : (TrieNodeLink.collapse hashB s.root_node s.db).1 =
      (TrieNodeLink.collapse hashB t.root_node t.db).1 := by
    rw [hroot]
    exact TrieNodeLink.collapse_link_fst_eq hashB t.root_node s.db t.db
  simp only [Trie.commit]
  rw [hc]
  rcases TrieNodeLink.collapse_shape hashB t.root_node t.db with he | ⟨hh, hhe⟩
  · rw [he]; rfl
  · rw [hhe]; rfl

end CollapseFst

/-- Folding the same inserts over two tries with equal inline roots yields
equal results at the root (including identical errors), and the root stays
inline. -/
theorem Trie.insertAllF_root_eq (f : Nat) : ∀ (ops : List (List Nat × List Nat))
    (s1 s2 : TrieState H), s1.root_node = s2.root_node → s1.root_node.inlineOnly = true →
    Except.map TrieState.root_node (Trie.insertAllF f ops s1) =
      Except.map TrieState.root_node (Trie.insertAllF f ops s2) ∧
    (∀ s1', Trie.insertAllF f ops s1 = .ok s1' → s1'.root_node.inlineOnly = true) := by
  intro ops
  induction ops with
  | nil =>
      intro s1 s2 hroot hinl
      refine ⟨by simp [Trie.insertAllF, Except.map, hroot], ?_⟩
      intro s1' h
      simp only [Trie.insertAllF, Except.ok.injEq] at h
      rw [← h]
      exact hinl
  | cons p rest ih =>
      intro s1 s2 hroot hinl
      obtain ⟨k, v⟩ := p
      obtain ⟨heq, hinlp⟩ := (insertF_inline f).1 s1.root_node s1.db s2.db
        (convert_bytes_to_nibbles k) v hinl
      simp only [Trie.insertAllF, Trie.insertF, bind, Except.bind]
      rw [heq, hroot]
      cases hr : TrieNodeLink.insertF f s2.db s2.root_node (convert_bytes_to_nibbles k) v with
      | error e => exact ⟨rfl, fun s1' h => by simp at h⟩
      | ok root =>
          dsimp only
          have hrootinl : root.inlineOnly = true := by
            refine hinlp root ?_
            rw [heq, hroot]
            exact hr
          obtain ⟨heq2, hinl2⟩ := ih ⟨root, s1.db, true⟩ ⟨root, s2.db, true⟩ rfl hrootinl
          exact ⟨heq2, fun s1' h => hinl2 s1' h⟩

/-- C4: the root digest is a deterministic function of the ordered insert
sequence: two tries that start from an empty root — regardless of what is
already in their backing stores or of their dirty flags — and perform the same
ordered inserts followed by one `commit` produce identical root digests (and
identical errors, if any). -/
theorem claim_C4_root_determinism (hashB : TrieNode H → H) (f : Nat)
    (ops : List (List Nat × List Nat)) (d1 d2 : Db H) (b1 b2 : Bool) :
    Except.map Prod.fst (do
      let s ← Trie.insertAllF f ops ⟨.empty, d1, b1⟩
      Trie.commit hashB s) =
    Except.map Prod.fst (do
      let s ← Trie.insertAllF f ops ⟨.empty, d2, b2⟩
      Trie.commit hashB s) := by
  obtain ⟨heq, hinl⟩ := Trie.insertAllF_root_eq f ops ⟨.empty, d1, b1⟩ ⟨.empty, d2, b2⟩ rfl rfl
  simp only [bind, Except.bind]
  cases h1 : Trie.insertAllF f ops (⟨.empty, d1, b1⟩ : TrieState H) with
  | error e =>
      rw [h1] at heq
      cases h2 : Trie.insertAllF f ops (⟨.empty, d2, b2⟩ : TrieState H) with
      | error e2 =>
          rw [h2] at heq
          simp only [Except.map] at heq
          simp only [Except.error.injEq] at heq
          rw [heq]
      | ok s2' => rw [h2] at heq; simp [Except.map] at heq
  | ok s1' =>
      rw [h1] at heq
      cases h2 : Trie.insertAllF f ops (⟨.empty, d2, b2⟩ : TrieState H) with
      | error e2 => rw [h2] at heq; simp [Except.map] at heq
      | ok s2' =>
          rw [h2] at heq
          simp only [Except.map, Except.ok.injEq] at heq
          exact Trie.commit_fst_eq hashB heq
